import Mathlib

/-!
Verification development for the interview-analysis pipeline repository.

Part 1 models the meeting retry/priority queue
(`src/zoom_bot/meeting_queue.py`, class `MeetingQueue`).

Modelling conventions:
* Times and durations are rationals measured in minutes
  (the code uses `datetime` / `timedelta`; only ordering and the
  `+ 1 minute`, `+ delay minutes`, `≤ 15 minutes` arithmetic matter).
* `self._meetings` (a dict `meeting_id -> (scheduled_time, url,
  retry_count, max_retries, is_urgent)`) is modelled as a function
  `ℕ → Option Meeting`.
* `self._queue` (a `heapq` min-heap of `(scheduled_time, meeting_id, url,
  retry_count)` tuples) is modelled as a plain list holding the heap's
  multiset of entries; `heappush` is list cons and popping the head of the
  heap is `popMin`, which extracts the entry that is minimal in the
  lexicographic tuple order Python uses to compare heap items.
* The join callback is a parameter `cb : ℕ → String → Bool`; each
  invocation of the callback is recorded as a `JoinEvent` so that theorems
  can speak about how often and with which arguments it fired.
* The worker thread / lock machinery is not modelled: every public method
  runs under the single re-entrant lock, so the observable behaviour is a
  sequential interleaving of the atomic operations modelled here.
-/

/-- One tuple `(scheduled_time, meeting_id, url, retry_count)` held in
`self._queue`. -/
structure Entry where
  time : ℚ
  id : ℕ
  url : String
  retry : ℕ
  deriving DecidableEq, Repr

/-- One value `(scheduled_time, url, retry_count, max_retries, is_urgent)`
of the `self._meetings` dict. -/
structure Meeting where
  time : ℚ
  url : String
  retry : ℕ
  maxRetries : ℕ
  urgent : Bool
  deriving DecidableEq, Repr

/-- The mutable state of a `MeetingQueue`: the heap contents and the
meetings dict. -/
structure QState where
  queue : List Entry
  meetings : ℕ → Option Meeting

/-- Point update of the meetings dict (`self._meetings[k] = v` /
`del self._meetings[k]`). -/
def setMeeting (f : ℕ → Option Meeting) (k : ℕ) (v : Option Meeting) :
    ℕ → Option Meeting :=
  fun k' => if k' = k then v else f k'

/-- A record of one invocation of the join callback: the arguments it was
called with, the retry count the caller held (`none` for the synchronous
past-time bypass in `schedule_meeting`, which calls the callback directly),
and the returned Boolean. -/
structure JoinEvent where
  id : ℕ
  url : String
  retry : Option ℕ
  ok : Bool
  deriving DecidableEq, Repr

/-- Python's lexicographic comparison of the heap tuples
`(scheduled_time, meeting_id, url, retry_count)`. -/
def entryLt (a b : Entry) : Bool :=
  decide (a.time < b.time) ||
    (decide (a.time = b.time) &&
      (decide (a.id < b.id) ||
        (decide (a.id = b.id) &&
          (decide (a.url < b.url) ||
            (decide (a.url = b.url) && decide (a.retry < b.retry))))))

/-- Extract the minimal entry (first one in case of exact ties, which are
indistinguishable values) together with the remaining entries. Models
`heapq.heappop` returning the heap minimum. -/
def popMinAux (best : Entry) : List Entry → Entry × List Entry
  | [] => (best, [])
  | x :: xs =>
    let p := popMinAux (if entryLt x best then x else best) xs
    (p.1, (if entryLt x best then best else x) :: p.2)

/-- `popMin` on the whole heap: `none` when the heap is empty. -/
def popMin : List Entry → Option (Entry × List Entry)
  | [] => none
  | e :: es => some (popMinAux e es)

/-- `MeetingQueue.reschedule_meeting(meeting_id, delay_minutes=None)`.
Returns the new state and the Boolean result. -/
def rescheduleMeeting (s : QState) (m : ℕ) (delayMinutes : Option ℚ)
    (now : ℚ) : QState × Bool :=
  match s.meetings m with
  | none => (s, false)
  | some mt =>
    if mt.maxRetries ≤ mt.retry then (s, false)
    else
      let delay := delayMinutes.getD (if mt.urgent then 3 else 5)
      let newTime := now + delay
      let nr := mt.retry + 1
      (⟨⟨newTime, m, mt.url, nr⟩ :: s.queue,
        setMeeting s.meetings m
          (some ⟨newTime, mt.url, nr, mt.maxRetries, mt.urgent⟩)⟩, true)

/-- `MeetingQueue.schedule_meeting(meeting_id, url, scheduled_time,
max_retries=5)`. Returns the new state, the Boolean result and the list of
join-callback invocations (empty or a single direct bypass call). -/
def scheduleMeeting (cb : ℕ → String → Bool) (s : QState) (m : ℕ)
    (url : String) (scheduledTime : ℚ) (maxRetries : ℕ) (now : ℚ) :
    QState × Bool × List JoinEvent :=
  let meetings1 := setMeeting s.meetings m none
  let actualJoinTime := scheduledTime + 1
  if actualJoinTime < now then
    (⟨s.queue, meetings1⟩, cb m url, [⟨m, url, none, cb m url⟩])
  else
    let isUrgent := decide (actualJoinTime - now ≤ 15)
    (⟨⟨actualJoinTime, m, url, 0⟩ :: s.queue,
      setMeeting meetings1 m
        (some ⟨actualJoinTime, url, 0, maxRetries, isUrgent⟩)⟩, true, [])

/-- `MeetingQueue.cancel_meeting(meeting_id)`. -/
def cancelMeeting (s : QState) (m : ℕ) : QState × Bool :=
  match s.meetings m with
  | none => (s, false)
  | some _ => (⟨s.queue, setMeeting s.meetings m none⟩, true)

/-- `MeetingQueue._join_meeting(meeting_id, url, retry_count, max_retries,
is_urgent)`: invoke the callback; on success drop the meeting from the
dict, on failure reschedule with the urgency-derived delay. -/
def joinMeeting (cb : ℕ → String → Bool) (s : QState) (m : ℕ) (url : String)
    (retry : ℕ) (urgent : Bool) (now : ℚ) : QState × List JoinEvent :=
  if cb m url then
    (⟨s.queue, setMeeting s.meetings m none⟩, [⟨m, url, some retry, true⟩])
  else
    let delay : ℚ := if urgent then 3 else 5
    ((rescheduleMeeting s m (some delay) now).1, [⟨m, url, some retry, false⟩])

/-- `MeetingQueue._process_next_meeting()`: if the heap head is due, pop
it, validate it against the meetings dict (cancellation and retry-count
fencing) and, if valid, join. -/
def processNextMeeting (cb : ℕ → String → Bool) (s : QState) (now : ℚ) :
    QState × List JoinEvent :=
  match popMin s.queue with
  | none => (s, [])
  | some (e, rest) =>
    if e.time ≤ now then
      let s1 : QState := ⟨rest, s.meetings⟩
      match s.meetings e.id with
      | none => (s1, [])
      | some mt =>
        if mt.retry ≠ e.retry then (s1, [])
        else joinMeeting cb s1 e.id mt.url mt.retry mt.urgent now
    else (s, [])

/-- `MeetingQueue.check_for_urgent_meetings()`: promote every pending
meeting whose remaining time is within 15 minutes to urgent. -/
def checkForUrgentMeetings (s : QState) (now : ℚ) : QState :=
  ⟨s.queue, fun k =>
    (s.meetings k).map fun mt =>
      if !mt.urgent && decide (mt.time - now ≤ 15) then
        ⟨mt.time, mt.url, mt.retry, mt.maxRetries, true⟩
      else mt⟩

/-- One externally triggered atomic operation on the queue state (a tick of
the processor thread, or a public method call).  `schedule_meeting` is kept
out of this alphabet: the trace theorems below are scoped to the lifetime
of a single scheduling generation sequence, which a fresh schedule call
restarts. -/
inductive QOp where
  | proc (now : ℚ)
  | resched (m : ℕ) (delayMinutes : Option ℚ) (now : ℚ)
  | check (now : ℚ)
  | cancel (m : ℕ)

/-- Apply one operation, collecting the join-callback invocations it
performs. -/
def stepQ (cb : ℕ → String → Bool) (s : QState) : QOp → QState × List JoinEvent
  | .proc now => processNextMeeting cb s now
  | .resched m d now => ((rescheduleMeeting s m d now).1, [])
  | .check now => (checkForUrgentMeetings s now, [])
  | .cancel m => ((cancelMeeting s m).1, [])

/-- Run a sequence of operations, concatenating the callback invocations in
order. -/
def runQ (cb : ℕ → String → Bool) (s : QState) : List QOp → QState × List JoinEvent
  | [] => (s, [])
  | op :: ops =>
    let p := stepQ cb s op
    let q := runQ cb p.1 ops
    (q.1, p.2 ++ q.2)

/-- Number of times a queue entry of meeting `m` with fencing token
(retry count) `r` was honored, i.e. reached the join callback. -/
def honorCount (m r : ℕ) (evs : List JoinEvent) : ℕ :=
  (evs.filter fun e => decide (e.id = m) && decide (e.retry = some r)).length

/-!
### Claims about `schedule_meeting`, `reschedule_meeting` and urgency
-/

/-- C3 counterexample. The claim says the past-time bypass fires when
`t + 1 ≤ now` and that it leaves the meeting table untouched. Both parts
fail on the code: (1) with `t = 0, now = 1` the offset join time equals
`now`, yet the callback is not invoked (no events) and the call returns
`true` (not the callback's `false`); (2) with a meeting already stored
under the same id and `t + 1 < now`, the bypass does fire but the stored
entry is deleted from the meeting table first. -/
theorem C3_pastTimeBypass_counterexample :
    ((scheduleMeeting (fun _ _ => false) ⟨[], fun _ => none⟩ 1 "u" 0 5 1).2.1 = true ∧
     (scheduleMeeting (fun _ _ => false) ⟨[], fun _ => none⟩ 1 "u" 0 5 1).2.2 = []) ∧
    ((scheduleMeeting (fun _ _ => false)
        ⟨[], setMeeting (fun _ => none) 1 (some ⟨9, "u", 0, 5, true⟩)⟩ 1 "u" 0 5 2).2.2.length = 1 ∧
     (scheduleMeeting (fun _ _ => false)
        ⟨[], setMeeting (fun _ => none) 1 (some ⟨9, "u", 0, 5, true⟩)⟩ 1 "u" 0 5 2).1.meetings 1 =
       none) := by
  refine ⟨⟨?_, ?_⟩, ?_, ?_⟩ <;> norm_num [scheduleMeeting, setMeeting]

/-- C3 (amended): `schedule_meeting(id, url, t)` bypasses the queue exactly
when the offset join time `t + 1` is strictly earlier than `now`; in that
case the join callback is invoked synchronously exactly once, its result is
returned, the heap is unchanged, and the meeting table is the original one
with any existing entry for the id removed. Otherwise the callback is not
invoked and one entry with due time `t + 1` and retry count `0` is pushed,
with `true` returned. -/
theorem C3_pastTimeBypass_amended (cb : ℕ → String → Bool) (s : QState)
    (m : ℕ) (url : String) (t : ℚ) (maxR : ℕ) (now : ℚ) :
    (t + 1 < now →
      (scheduleMeeting cb s m url t maxR now).1.queue = s.queue ∧
      (scheduleMeeting cb s m url t maxR now).1.meetings = setMeeting s.meetings m none ∧
      (scheduleMeeting cb s m url t maxR now).2.1 = cb m url ∧
      (scheduleMeeting cb s m url t maxR now).2.2 = [⟨m, url, none, cb m url⟩]) ∧
    (¬ t + 1 < now →
      (scheduleMeeting cb s m url t maxR now).2.2 = [] ∧
      (scheduleMeeting cb s m url t maxR now).2.1 = true ∧
      (scheduleMeeting cb s m url t maxR now).1.queue = ⟨t + 1, m, url, 0⟩ :: s.queue) := by
  constructor <;> intro h <;> simp [scheduleMeeting, h]

/-- Witness for `C3_pastTimeBypass_amended` at concrete inputs covering
both branches. -/
theorem C3_pastTimeBypass_amended_witness :
    ((scheduleMeeting (fun _ _ => false) ⟨[], fun _ => none⟩ 1 "u" 0 5 2).2.1 = false ∧
     (scheduleMeeting (fun _ _ => false) ⟨[], fun _ => none⟩ 1 "u" 0 5 2).2.2 =
       [⟨1, "u", none, false⟩]) ∧
    ((scheduleMeeting (fun _ _ => false) ⟨[], fun _ => none⟩ 1 "u" 0 5 1).2.2 = [] ∧
     (scheduleMeeting (fun _ _ => false) ⟨[], fun _ => none⟩ 1 "u" 0 5 1).2.1 = true) := by
  have h1 := (C3_pastTimeBypass_amended (fun _ _ => false) ⟨[], fun _ => none⟩ 1 "u" 0 5 2).1
    (by norm_num)
  have h2 := (C3_pastTimeBypass_amended (fun _ _ => false) ⟨[], fun _ => none⟩ 1 "u" 0 5 1).2
    (by norm_num)
  exact ⟨⟨h1.2.2.1, h1.2.2.2⟩, ⟨h2.1, h2.2.1⟩⟩

/-- C8: `reschedule_meeting` returns `false` and leaves the state unchanged
exactly when the id is unknown or the stored retry count has reached
`max_retries`; otherwise it returns `true`, stores the incremented retry
count and scheduled time `now + delay` (delay defaulting to 3 minutes when
urgent, else 5), and pushes one queue entry carrying the incremented retry
count. -/
theorem C8_reschedule_characterization (s : QState) (m : ℕ) (d : Option ℚ)
    (now : ℚ) :
    ((∀ mt, s.meetings m = some mt → mt.maxRetries ≤ mt.retry) →
      rescheduleMeeting s m d now = (s, false)) ∧
    (∀ mt, s.meetings m = some mt → mt.retry < mt.maxRetries →
      rescheduleMeeting s m d now =
        (⟨⟨now + d.getD (if mt.urgent then 3 else 5), m, mt.url, mt.retry + 1⟩ :: s.queue,
          setMeeting s.meetings m
            (some ⟨now + d.getD (if mt.urgent then 3 else 5), mt.url, mt.retry + 1,
              mt.maxRetries, mt.urgent⟩)⟩, true)) := by
  constructor
  · intro h
    match hm : s.meetings m with
    | none => simp [rescheduleMeeting, hm]
    | some mt => simp [rescheduleMeeting, hm, h mt hm]
  · intro mt hm hlt
    simp [rescheduleMeeting, hm, Nat.not_le.mpr hlt]

/-- Witness for `C8_reschedule_characterization`: an unknown id fails with
no state change, and a known non-exhausted meeting is rescheduled. -/
theorem C8_reschedule_characterization_witness :
    (rescheduleMeeting ⟨[], fun _ => none⟩ 7 none 4 = (⟨[], fun _ => none⟩, false)) ∧
    (rescheduleMeeting ⟨[], setMeeting (fun _ => none) 1 (some ⟨9, "u", 0, 5, true⟩)⟩ 1 none 4 =
      (⟨[⟨4 + 3, 1, "u", 1⟩],
        setMeeting (setMeeting (fun _ => none) 1 (some ⟨9, "u", 0, 5, true⟩)) 1
          (some ⟨4 + 3, "u", 1, 5, true⟩)⟩, true)) := by
  constructor
  · exact (C8_reschedule_characterization ⟨[], fun _ => none⟩ 7 none 4).1
      (by intro mt hmt; simp at hmt)
  · have h := (C8_reschedule_characterization
      ⟨[], setMeeting (fun _ => none) 1 (some ⟨9, "u", 0, 5, true⟩)⟩ 1 none 4).2
      ⟨9, "u", 0, 5, true⟩ (by decide) (by decide)
    simpa using h

/-- C9: urgency is decided by the threshold `offset join time − now ≤ 15`
both at schedule time (when the meeting is stored at all, i.e. not
past-time-bypassed) and at each `check_for_urgent_meetings` call, which
promotes exactly the not-yet-urgent meetings whose remaining time has
dropped to at most 15 minutes (the stored flag becomes the disjunction of
the old flag with the threshold test). -/
theorem C9_urgencyThreshold :
    (∀ (cb : ℕ → String → Bool) (s : QState) (m : ℕ) (url : String)
        (t : ℚ) (maxR : ℕ) (now : ℚ), ¬ t + 1 < now →
      (scheduleMeeting cb s m url t maxR now).1.meetings m =
        some ⟨t + 1, url, 0, maxR, decide (t + 1 - now ≤ 15)⟩) ∧
    (∀ (s : QState) (now : ℚ) (m : ℕ) (mt : Meeting), s.meetings m = some mt →
      (checkForUrgentMeetings s now).meetings m =
        some ⟨mt.time, mt.url, mt.retry, mt.maxRetries,
          mt.urgent || decide (mt.time - now ≤ 15)⟩) := by
  constructor
  · intro cb s m url t maxR now h
    simp [scheduleMeeting, h, setMeeting]
  · intro s now m mt hm
    cases mt with
    | mk time url retry maxR urgent =>
      cases urgent <;> by_cases hc : time - now ≤ 15 <;>
        simp [checkForUrgentMeetings, hm, hc] <;> linarith

/-- Witness for `C9_urgencyThreshold`: a meeting scheduled 20 minutes out
is stored non-urgent, and once 6 minutes pass `check_for_urgent_meetings`
promotes it. -/
theorem C9_urgencyThreshold_witness :
    ((scheduleMeeting (fun _ _ => true) ⟨[], fun _ => none⟩ 1 "u" 20 5 0).1.meetings 1 =
      some ⟨21, "u", 0, 5, false⟩) ∧
    ((checkForUrgentMeetings ⟨[], setMeeting (fun _ => none) 1 (some ⟨21, "u", 0, 5, false⟩)⟩ 6).meetings 1 =
      some ⟨21, "u", 0, 5, true⟩) := by
  constructor
  · have h := C9_urgencyThreshold.1 (fun _ _ => true) ⟨[], fun _ => none⟩ 1 "u" 20 5 0
      (by norm_num)
    rw [h]
    norm_num
  · have h := C9_urgencyThreshold.2 ⟨[], setMeeting (fun _ => none) 1 (some ⟨21, "u", 0, 5, false⟩)⟩
      6 1 ⟨21, "u", 0, 5, false⟩ (by simp [setMeeting])
    rw [h]
    norm_num

/-- Any `reschedule_meeting` call keeps a stored urgent meeting present and
urgent (the flag is copied unchanged into the updated record). -/
theorem resched_urgent_mono (s : QState) (m' : ℕ) (d : Option ℚ) (now : ℚ)
    (m : ℕ) (mt : Meeting) (hm : s.meetings m = some mt)
    (hu : mt.urgent = true) :
    ∃ mt', (rescheduleMeeting s m' d now).1.meetings m = some mt' ∧
      mt'.urgent = true := by
  unfold rescheduleMeeting
  cases h' : s.meetings m' with
  | none => exact ⟨mt, hm, hu⟩
  | some mt2 =>
    by_cases hle : mt2.maxRetries ≤ mt2.retry
    · simp only [hle, if_true]
      exact ⟨mt, hm, hu⟩
    · simp only [hle, if_false, setMeeting]
      by_cases hmm : m = m'
      · subst hmm
        rw [hm] at h'
        cases h'
        exact ⟨⟨now + d.getD (if mt.urgent then 3 else 5), mt.url, mt.retry + 1,
          mt.maxRetries, mt.urgent⟩, by simp, hu⟩
      · exact ⟨mt, by simp [hmm, hm], hu⟩

/-- Any `check_for_urgent_meetings` call keeps a stored urgent meeting
present and urgent (it only ever promotes). -/
theorem check_urgent_mono (s : QState) (now : ℚ) (m : ℕ) (mt : Meeting)
    (hm : s.meetings m = some mt) (hu : mt.urgent = true) :
    ∃ mt', (checkForUrgentMeetings s now).meetings m = some mt' ∧
      mt'.urgent = true := by
  refine ⟨mt, ?_, hu⟩
  simp [checkForUrgentMeetings, hm, hu]

/-- The operations within C10's scope: `reschedule_meeting` and
`check_for_urgent_meetings`. -/
def isReschedOrCheck : QOp → Prop
  | .resched _ _ _ => True
  | .check _ => True
  | _ => False

/-- C10: urgency is monotone within one scheduling generation: if a stored
meeting's `is_urgent` flag is `true`, then after any sequence of
`reschedule_meeting` (with arbitrary explicit or defaulted delays) and
`check_for_urgent_meetings` calls the meeting is still stored and still
urgent. (Only a fresh `schedule_meeting` call — outside this operation
alphabet — recomputes the flag from scratch.) -/
theorem C10_urgency_monotone (cb : ℕ → String → Bool) (s : QState)
    (ops : List QOp) (m : ℕ) (mt : Meeting)
    (hops : ∀ op ∈ ops, isReschedOrCheck op)
    (hm : s.meetings m = some mt) (hu : mt.urgent = true) :
    ∃ mt', (runQ cb s ops).1.meetings m = some mt' ∧ mt'.urgent = true := by
  induction ops generalizing s mt with
  | nil => exact ⟨mt, hm, hu⟩
  | cons op ops ih =>
    have htail : ∀ op ∈ ops, isReschedOrCheck op := fun o h =>
      hops o (List.mem_cons_of_mem _ h)
    have hhead : isReschedOrCheck op := hops op (List.mem_cons_self op ops)
    cases op with
    | proc now => exact absurd hhead (by simp [isReschedOrCheck])
    | cancel m2 => exact absurd hhead (by simp [isReschedOrCheck])
    | resched m2 d now =>
      obtain ⟨mt', h1, h2⟩ := resched_urgent_mono s m2 d now m mt hm hu
      simpa [runQ, stepQ] using ih _ _ htail h1 h2
    | check now =>
      obtain ⟨mt', h1, h2⟩ := check_urgent_mono s now m mt hm hu
      simpa [runQ, stepQ] using ih _ _ htail h1 h2

/-- Witness for `C10_urgency_monotone`: an urgent meeting stays urgent
across a reschedule with a large explicit delay followed by a check. -/
theorem C10_urgency_monotone_witness :
    ∃ mt', (runQ (fun _ _ => true)
        ⟨[], setMeeting (fun _ => none) 1 (some ⟨10, "u", 0, 5, true⟩)⟩
        [QOp.resched 1 (some 120) 0, QOp.check 5]).1.meetings 1 = some mt' ∧
      mt'.urgent = true := by
  apply C10_urgency_monotone (fun _ _ => true)
    ⟨[], setMeeting (fun _ => none) 1 (some ⟨10, "u", 0, 5, true⟩)⟩
    [QOp.resched 1 (some 120) 0, QOp.check 5] 1 ⟨10, "u", 0, 5, true⟩
  · intro op h
    simp only [List.mem_cons, List.mem_singleton, List.not_mem_nil, or_false] at h
    rcases h with rfl | rfl <;> trivial
  · simp [setMeeting]
  · rfl

/-!
### Retry exhaustion (C2)
-/

/-- Overwriting the same key twice in the meetings dict keeps only the last
value. -/
theorem setMeeting_setMeeting (f : ℕ → Option Meeting) (k : ℕ)
    (v w : Option Meeting) :
    setMeeting (setMeeting f k v) k w = setMeeting f k w := by
  funext k'
  by_cases h : k' = k <;> simp [setMeeting, h]

/-- Looking up the key just written. -/
theorem setMeeting_self (f : ℕ → Option Meeting) (k : ℕ)
    (v : Option Meeting) : setMeeting f k v k = v := by
  simp [setMeeting]

/-- Processor ticks on an empty heap do nothing. -/
theorem runQ_proc_empty (cb : ℕ → String → Bool) (s : QState)
    (hq : s.queue = []) (ts : List ℚ) :
    runQ cb s (ts.map QOp.proc) = (s, []) := by
  induction ts with
  | nil => rfl
  | cons t ts ih =>
    simp only [List.map_cons, runQ, stepQ, processNextMeeting, hq, popMin]
    simpa using ih

/-- The exhaustion run, generalized over the remaining retry budget: from a
state holding exactly one meeting `m` at retry count `r` (with `r + j =
max_retries`) and exactly its one live heap entry, processing the heap at
each successive due time performs `j + 1` failing join attempts with
consecutive fencing tokens `r, r+1, …, r+j`, after which the heap is empty
and the meeting is still stored with retry count `max_retries`. -/
theorem exhaustAux (m : ℕ) (url : String) (u : Bool) (N : ℕ) (d : ℚ)
    (hd : d = if u then 3 else 5) :
    ∀ (j r : ℕ), r + j = N → ∀ (tr : ℚ),
    runQ (fun _ _ => false)
        ⟨[⟨tr, m, url, r⟩], setMeeting (fun _ => none) m (some ⟨tr, url, r, N, u⟩)⟩
        ((List.range (j + 1)).map fun (k : ℕ) => QOp.proc (tr + (k : ℚ) * d)) =
      (⟨[], setMeeting (fun _ => none) m (some ⟨tr + (j : ℚ) * d, url, N, N, u⟩)⟩,
        (List.range (j + 1)).map fun (k : ℕ) => ⟨m, url, some (r + k), false⟩) := by
  intro j
  induction j with
  | zero =>
    intro r hr tr
    have hrN : r = N := by omega
    subst hrN
    have hrange : List.range 1 = [0] := by decide
    simp only [hrange, List.map_cons, List.map_nil, Nat.cast_zero, zero_mul,
      add_zero, runQ, stepQ, processNextMeeting, popMin, popMinAux]
    simp [joinMeeting, rescheduleMeeting, setMeeting_self]
  | succ j ihj =>
    intro r hr tr
    have hrlt : r < N := by omega
    have hstep : processNextMeeting (fun _ _ => false)
        ⟨[⟨tr, m, url, r⟩], setMeeting (fun _ => none) m (some ⟨tr, url, r, N, u⟩)⟩ tr
        = (⟨[⟨tr + d, m, url, r + 1⟩],
            setMeeting (fun _ => none) m (some ⟨tr + d, url, r + 1, N, u⟩)⟩,
           [⟨m, url, some r, false⟩]) := by
      simp [processNextMeeting, popMin, popMinAux, joinMeeting, rescheduleMeeting,
        setMeeting_self, setMeeting_setMeeting, Nat.not_le.mpr hrlt, hd]
    have hops : (List.range (j + 1 + 1)).map (fun (k : ℕ) => QOp.proc (tr + (k : ℚ) * d))
        = QOp.proc tr ::
            (List.range (j + 1)).map (fun (k : ℕ) => QOp.proc ((tr + d) + (k : ℚ) * d)) := by
      rw [List.range_succ_eq_map, List.map_cons, List.map_map]
      simp only [Nat.cast_zero, zero_mul, add_zero]
      congr 1
      refine List.map_congr_left ?_
      intro k hk
      simp only [Function.comp_apply]
      congr 1
      push_cast
      ring
    have hev : (List.range (j + 1 + 1)).map
          (fun (k : ℕ) => (⟨m, url, some (r + k), false⟩ : JoinEvent))
        = (⟨m, url, some r, false⟩ : JoinEvent) ::
            (List.range (j + 1)).map
              (fun (k : ℕ) => (⟨m, url, some (r + 1 + k), false⟩ : JoinEvent)) := by
      rw [List.range_succ_eq_map, List.map_cons, List.map_map]
      simp only [Nat.add_zero]
      congr 1
      refine List.map_congr_left ?_
      intro k hk
      simp only [Function.comp_apply]
      have hkk : r + Nat.succ k = r + 1 + k := by omega
      rw [hkk]
    rw [hops, hev]
    simp only [runQ, stepQ, hstep]
    rw [ihj (r + 1) (by omega) (tr + d)]
    have ht : tr + d + (j : ℚ) * d = tr + ((j + 1 : ℕ) : ℚ) * d := by
      push_cast
      ring
    rw [ht]
    simp

/-- C2 counterexample. With `max_retries = 1` and an always-failing join
callback, the two due processor ticks perform exactly 2 = N + 1 join
attempts and leave the heap empty — but, contrary to the claim, the meeting
is NOT removed from the meeting state: the final failed attempt calls
`reschedule_meeting`, which returns `False` because the retry budget is
exhausted, and nothing ever deletes the entry, so it remains stored with
retry count 1. -/
theorem C2_retryExhaustion_counterexample :
    (runQ (fun _ _ => false)
        ⟨[⟨10, 1, "u", 0⟩], setMeeting (fun _ => none) 1 (some ⟨10, "u", 0, 1, true⟩)⟩
        [QOp.proc 10, QOp.proc 13]).2.length = 2 ∧
    (runQ (fun _ _ => false)
        ⟨[⟨10, 1, "u", 0⟩], setMeeting (fun _ => none) 1 (some ⟨10, "u", 0, 1, true⟩)⟩
        [QOp.proc 10, QOp.proc 13]).1.queue = [] ∧
    (runQ (fun _ _ => false)
        ⟨[⟨10, 1, "u", 0⟩], setMeeting (fun _ => none) 1 (some ⟨10, "u", 0, 1, true⟩)⟩
        [QOp.proc 10, QOp.proc 13]).1.meetings 1 =
      some ⟨13, "u", 1, 1, true⟩ := by
  norm_num [runQ, stepQ, processNextMeeting, popMin, popMinAux, joinMeeting,
    rescheduleMeeting, setMeeting]

/-- C2 (amended): for a meeting with `max_retries = N` whose join callback
always fails, the join callback is invoked exactly `N + 1` times (the
initial attempt plus `N` retries, with fencing tokens `0, …, N`), after
which the heap holds no entry for the meeting and every further processor
tick is a silent no-op — but the meeting is NOT removed from the meeting
state: it stays stored with retry count `N`. -/
theorem C2_retryExhaustion_amended (m : ℕ) (url : String) (t : ℚ) (N : ℕ)
    (u : Bool) :
    runQ (fun _ _ => false)
        ⟨[⟨t, m, url, 0⟩], setMeeting (fun _ => none) m (some ⟨t, url, 0, N, u⟩)⟩
        ((List.range (N + 1)).map fun (k : ℕ) =>
          QOp.proc (t + (k : ℚ) * (if u then 3 else 5))) =
      (⟨[], setMeeting (fun _ => none) m
          (some ⟨t + (N : ℚ) * (if u then 3 else 5), url, N, N, u⟩)⟩,
        (List.range (N + 1)).map fun (k : ℕ) => ⟨m, url, some k, false⟩) ∧
    ∀ ts : List ℚ,
      runQ (fun _ _ => false)
          ⟨[], setMeeting (fun _ => none) m
            (some ⟨t + (N : ℚ) * (if u then 3 else 5), url, N, N, u⟩)⟩
          (ts.map QOp.proc) =
        (⟨[], setMeeting (fun _ => none) m
          (some ⟨t + (N : ℚ) * (if u then 3 else 5), url, N, N, u⟩)⟩, []) := by
  constructor
  · have h := exhaustAux m url u N (if u then 3 else 5) rfl N 0 (by omega) t
    rw [h]
    congr 1
    refine List.map_congr_left ?_
    intro k hk
    simp
  · intro ts
    exact runQ_proc_empty _ _ rfl ts

/-!
### Fencing (C1)
-/

/-- A heap entry is stale at a state: its meeting id is no longer in the
meetings dict, or the retry count stored for that id differs from the
entry's fencing token. -/
def staleEntry (s : QState) (e : Entry) : Prop :=
  match s.meetings e.id with
  | none => True
  | some mt => mt.retry ≠ e.retry

/-- The fencing relation on heap entries used by the queue invariant: two
live entries for the same meeting id must carry distinct fencing tokens. -/
def distinctTok (m : ℕ) (a b : Entry) : Prop :=
  a.id = m → b.id = m → a.retry ≠ b.retry

theorem distinctTok_symm (m : ℕ) : Symmetric (distinctTok m) :=
  fun _ _ h hb ha => (h ha hb).symm

/-- Invariant tying the heap to the meetings dict, for a fixed meeting id
`m`: while `m` is stored, every heap entry for `m` carries a token at most
the stored retry count, and the tokens of `m`'s heap entries are pairwise
distinct. (Established by `schedule_meeting`, which pushes token 0 with
stored count 0, and preserved by every operation below.) -/
def QueueInv (m : ℕ) (s : QState) : Prop :=
  match s.meetings m with
  | none => True
  | some mt =>
    (∀ e ∈ s.queue, e.id = m → e.retry ≤ mt.retry) ∧
    s.queue.Pairwise (distinctTok m)

/-- After generation `r` of meeting `m` has been honored, that generation
is dead: no heap entry for `m` carries token `r` any more, and the stored
retry count (if `m` is still stored) is either strictly above `r` or stuck
at `r` with the retry budget exhausted. -/
def GenDead (m r : ℕ) (s : QState) : Prop :=
  (∀ e ∈ s.queue, e.id = m → e.retry ≠ r) ∧
  (match s.meetings m with
   | none => True
   | some mt => r < mt.retry ∨ (mt.retry = r ∧ mt.maxRetries ≤ mt.retry))

/-- `popMinAux` returns a permutation of its input. -/
theorem popMinAux_perm (l : List Entry) : ∀ best : Entry,
    List.Perm (best :: l) ((popMinAux best l).1 :: (popMinAux best l).2) := by
  induction l with
  | nil => intro best; simp [popMinAux]
  | cons x xs ih =>
    intro best
    simp only [popMinAux]
    by_cases h : entryLt x best
    · simp only [h, if_true]
      have h1 : List.Perm ((popMinAux x xs).1 :: best :: (popMinAux x xs).2)
          (best :: (popMinAux x xs).1 :: (popMinAux x xs).2) :=
        List.Perm.swap best (popMinAux x xs).1 (popMinAux x xs).2
      have h2 : List.Perm (best :: (popMinAux x xs).1 :: (popMinAux x xs).2)
          (best :: x :: xs) := List.Perm.cons best (ih x).symm
      exact (h1.trans h2).symm
    · simp only [h, if_false]
      have h1 : List.Perm ((popMinAux best xs).1 :: x :: (popMinAux best xs).2)
          (x :: (popMinAux best xs).1 :: (popMinAux best xs).2) :=
        List.Perm.swap x (popMinAux best xs).1 (popMinAux best xs).2
      have h2 : List.Perm (x :: (popMinAux best xs).1 :: (popMinAux best xs).2)
          (x :: best :: xs) := List.Perm.cons x (ih best).symm
      have h3 : List.Perm (x :: best :: xs) (best :: x :: xs) := List.Perm.swap best x xs
      exact ((h1.trans h2).trans h3).symm

/-- Popping the heap yields a permutation decomposition of its contents. -/
theorem popMin_perm (l : List Entry) (e : Entry) (rest : List Entry)
    (h : popMin l = some (e, rest)) : List.Perm l (e :: rest) := by
  cases l with
  | nil => cases h
  | cons x xs =>
    simp only [popMin, Option.some.injEq] at h
    have hp := popMinAux_perm xs x
    rw [h] at hp
    exact hp

/-- C1, first half as a standalone step: a due popped entry that is stale
(cancelled id, or token mismatch with the stored retry count) is discarded:
the state only loses the popped entry and the join callback does not run. -/
theorem processNext_discards_stale (cb : ℕ → String → Bool) (s : QState)
    (now : ℚ) (e : Entry) (rest : List Entry)
    (hpop : popMin s.queue = some (e, rest)) (hdue : e.time ≤ now)
    (hstale : staleEntry s e) :
    processNextMeeting cb s now = (⟨rest, s.meetings⟩, []) := by
  unfold processNextMeeting
  rw [hpop]
  simp only [hdue, if_true]
  cases hm : s.meetings e.id with
  | none => rfl
  | some mt =>
    have hne : mt.retry ≠ e.retry := by
      unfold staleEntry at hstale
      rw [hm] at hstale
      exact hstale
    simp [hne]

/-- Removing a popped entry preserves the queue invariant. -/
theorem inv_pop (m : ℕ) (s : QState) (e : Entry) (rest : List Entry)
    (hp : List.Perm s.queue (e :: rest)) (h : QueueInv m s) :
    QueueInv m ⟨rest, s.meetings⟩ := by
  cases hm : s.meetings m with
  | none => simp [QueueInv, hm]
  | some mt =>
    simp only [QueueInv, hm] at h ⊢
    obtain ⟨h1, h2⟩ := h
    refine ⟨?_, ?_⟩
    · intro x hx hid
      exact h1 x (hp.mem_iff.mpr (List.mem_cons_of_mem _ hx)) hid
    · exact ((hp.pairwise_iff (fun hab => distinctTok_symm m hab)).mp h2).of_cons

/-- `reschedule_meeting` preserves the queue invariant: when it pushes, the
new entry's token is the freshly incremented stored retry count, strictly
above every live token. -/
theorem inv_resched (m m2 : ℕ) (d : Option ℚ) (now : ℚ) (s : QState)
    (h : QueueInv m s) : QueueInv m (rescheduleMeeting s m2 d now).1 := by
  unfold rescheduleMeeting
  cases h2 : s.meetings m2 with
  | none => exact h
  | some mt2 =>
    by_cases hle : mt2.maxRetries ≤ mt2.retry
    · simp only [hle, if_true]
      exact h
    · simp only [hle, if_false]
      by_cases hmm : m2 = m
      · subst hmm
        have h' : (∀ e ∈ s.queue, e.id = m2 → e.retry ≤ mt2.retry) ∧
            s.queue.Pairwise (distinctTok m2) := by
          simpa only [QueueInv, h2] using h
        obtain ⟨h1, hp⟩ := h'
        simp only [QueueInv, setMeeting_self]
        constructor
        · intro e he hid
          rcases List.mem_cons.mp he with rfl | hmem
          · simp
          · exact Nat.le_succ_of_le (h1 e hmem hid)
        · refine List.Pairwise.cons ?_ hp
          intro b hb hid1 hid2
          have hble := h1 b hb hid2
          simp only []
          omega
      · have hmne : m ≠ m2 := fun hh => hmm hh.symm
        cases hm : s.meetings m with
        | none => simp [QueueInv, setMeeting, if_neg hmne, hm]
        | some mt =>
          have h' : (∀ e ∈ s.queue, e.id = m → e.retry ≤ mt.retry) ∧
              s.queue.Pairwise (distinctTok m) := by
            simpa only [QueueInv, hm] using h
          obtain ⟨h1, hp⟩ := h'
          simp only [QueueInv, setMeeting, if_neg hmne, hm]
          constructor
          · intro e he hid
            rcases List.mem_cons.mp he with rfl | hmem
            · exact absurd hid hmm
            · exact h1 e hmem hid
          · refine List.Pairwise.cons ?_ hp
            intro b hb hid1
            exact absurd hid1 hmm

/-- `check_for_urgent_meetings` preserves the queue invariant: it touches
only urgency flags, never retry counts or the heap. -/
theorem inv_check (m : ℕ) (now : ℚ) (s : QState) (h : QueueInv m s) :
    QueueInv m (checkForUrgentMeetings s now) := by
  cases hm : s.meetings m with
  | none => simp [QueueInv, checkForUrgentMeetings, hm]
  | some mt =>
    have h' : (∀ e ∈ s.queue, e.id = m → e.retry ≤ mt.retry) ∧
        s.queue.Pairwise (distinctTok m) := by
      simpa only [QueueInv, hm] using h
    simp only [QueueInv, checkForUrgentMeetings, hm, Option.map_some']
    refine ⟨?_, h'.2⟩
    intro e he hid
    have hle := h'.1 e he hid
    split
    · exact hle
    · exact hle

/-- `cancel_meeting` preserves the queue invariant. -/
theorem inv_cancel (m m2 : ℕ) (s : QState) (h : QueueInv m s) :
    QueueInv m (cancelMeeting s m2).1 := by
  unfold cancelMeeting
  cases h2 : s.meetings m2 with
  | none => exact h
  | some mt2 =>
    by_cases hmm : m = m2
    · subst hmm
      simp [QueueInv, setMeeting_self]
    · cases hm : s.meetings m with
      | none => simp [QueueInv, setMeeting, if_neg hmm, hm]
      | some mt =>
        have h' : (∀ e ∈ s.queue, e.id = m → e.retry ≤ mt.retry) ∧
            s.queue.Pairwise (distinctTok m) := by
          simpa only [QueueInv, hm] using h
        simp only [QueueInv, setMeeting, if_neg hmm, hm]
        exact h'

/-- `_join_meeting` preserves the queue invariant (success removes the
meeting; failure delegates to `reschedule_meeting`). -/
theorem inv_join (m : ℕ) (cb : ℕ → String → Bool) (s : QState) (m2 : ℕ)
    (url : String) (r : ℕ) (u : Bool) (now : ℚ) (h : QueueInv m s) :
    QueueInv m (joinMeeting cb s m2 url r u now).1 := by
  unfold joinMeeting
  by_cases hcb : cb m2 url = true
  · rw [if_pos hcb]
    by_cases hmm : m = m2
    · subst hmm
      simp [QueueInv, setMeeting_self]
    · cases hm : s.meetings m with
      | none => simp [QueueInv, setMeeting, if_neg hmm, hm]
      | some mt =>
        have h' : (∀ e ∈ s.queue, e.id = m → e.retry ≤ mt.retry) ∧
            s.queue.Pairwise (distinctTok m) := by
          simpa only [QueueInv, hm] using h
        simp only [QueueInv, setMeeting, if_neg hmm, hm]
        exact h'
  · rw [if_neg hcb]
    exact inv_resched m m2 (some (if u then 3 else 5)) now s h

/-- A processor tick preserves the queue invariant. -/
theorem inv_proc (m : ℕ) (cb : ℕ → String → Bool) (s : QState) (now : ℚ)
    (h : QueueInv m s) : QueueInv m (processNextMeeting cb s now).1 := by
  unfold processNextMeeting
  cases hp : popMin s.queue with
  | none => exact h
  | some pr =>
    obtain ⟨e, rest⟩ := pr
    by_cases ht : e.time ≤ now
    · have hperm := popMin_perm s.queue e rest hp
      have h1 : QueueInv m ⟨rest, s.meetings⟩ := inv_pop m s e rest hperm h
      simp only [hp]
      rw [if_pos ht]
      cases hm2 : s.meetings e.id with
      | none => simpa only [hm2] using h1
      | some mt =>
        simp only [hm2]
        by_cases hr : mt.retry ≠ e.retry
        · rw [if_pos hr]
          exact h1
        · rw [if_neg hr]
          exact inv_join m cb ⟨rest, s.meetings⟩ e.id mt.url mt.retry mt.urgent now h1
    · simp only [hp]
      rw [if_neg ht]
      exact h

/-- Every operation preserves the queue invariant. -/
theorem inv_step (m : ℕ) (cb : ℕ → String → Bool) (s : QState) (op : QOp)
    (h : QueueInv m s) : QueueInv m (stepQ cb s op).1 := by
  cases op with
  | proc now => exact inv_proc m cb s now h
  | resched m2 d now => exact inv_resched m m2 d now s h
  | check now => exact inv_check m now s h
  | cancel m2 => exact inv_cancel m m2 s h

/-- Both join outcomes record exactly one callback invocation, carrying the
fencing token the processor validated. -/
theorem joinMeeting_events (cb : ℕ → String → Bool) (s : QState) (m2 : ℕ)
    (url : String) (rr : ℕ) (u : Bool) (now : ℚ) :
    (joinMeeting cb s m2 url rr u now).2 = [⟨m2, url, some rr, cb m2 url⟩] := by
  unfold joinMeeting
  by_cases hcb : cb m2 url = true
  · rw [if_pos hcb, hcb]
  · rw [if_neg hcb]
    have hf : cb m2 url = false := by
      cases hcb2 : cb m2 url
      · rfl
      · exact absurd hcb2 hcb
    rw [hf]

theorem honorCount_append (m r : ℕ) (a b : List JoinEvent) :
    honorCount m r (a ++ b) = honorCount m r a + honorCount m r b := by
  simp [honorCount, List.filter_append]

theorem honorCount_le_length (m r : ℕ) (evs : List JoinEvent) :
    honorCount m r evs ≤ evs.length :=
  List.length_filter_le _ _

theorem honorCount_single (m r i : ℕ) (u : String) (t : ℕ) (b : Bool) :
    honorCount m r [⟨i, u, some t, b⟩] = if i = m ∧ t = r then 1 else 0 := by
  by_cases h1 : i = m <;> by_cases h2 : t = r <;>
    simp [honorCount, List.filter, h1, h2]

/-- `reschedule_meeting` never revives a dead generation: any pushed entry
carries the freshly incremented token, which the dead-generation invariant
keeps strictly above `r`. -/
theorem gendead_resched (m r m2 : ℕ) (d : Option ℚ) (now : ℚ) (s : QState)
    (h : GenDead m r s) : GenDead m r (rescheduleMeeting s m2 d now).1 := by
  obtain ⟨h1, h2m⟩ := h
  unfold rescheduleMeeting
  cases h2 : s.meetings m2 with
  | none => exact ⟨h1, h2m⟩
  | some mt2 =>
    by_cases hle : mt2.maxRetries ≤ mt2.retry
    · simp only [hle, if_true]
      exact ⟨h1, h2m⟩
    · simp only [hle, if_false]
      by_cases hmm : m2 = m
      · subst hmm
        have hm2 : r < mt2.retry ∨ (mt2.retry = r ∧ mt2.maxRetries ≤ mt2.retry) := by
          simpa only [h2] using h2m
        have hlt : r < mt2.retry := by
          rcases hm2 with hlt | ⟨heq, hmax⟩
          · exact hlt
          · exact absurd hmax hle
        refine ⟨?_, ?_⟩
        · intro e he hid
          rcases List.mem_cons.mp he with rfl | hmem
          · show mt2.retry + 1 ≠ r
            omega
          · exact h1 e hmem hid
        · simp only [setMeeting_self]
          left
          show r < mt2.retry + 1
          omega
      · have hmne : m ≠ m2 := fun hh => hmm hh.symm
        refine ⟨?_, ?_⟩
        · intro e he hid
          rcases List.mem_cons.mp he with rfl | hmem
          · exact absurd hid hmm
          · exact h1 e hmem hid
        · simp only [setMeeting, if_neg hmne]
          exact h2m

/-- `check_for_urgent_meetings` never revives a dead generation. -/
theorem gendead_check (m r : ℕ) (now : ℚ) (s : QState) (h : GenDead m r s) :
    GenDead m r (checkForUrgentMeetings s now) := by
  obtain ⟨h1, h2⟩ := h
  refine ⟨h1, ?_⟩
  cases hm : s.meetings m with
  | none => simp [checkForUrgentMeetings, hm]
  | some mt =>
    have hm2 : r < mt.retry ∨ (mt.retry = r ∧ mt.maxRetries ≤ mt.retry) := by
      simpa only [hm] using h2
    simp only [checkForUrgentMeetings, hm, Option.map_some']
    split
    · exact hm2
    · exact hm2

/-- `cancel_meeting` never revives a dead generation. -/
theorem gendead_cancel (m r m2 : ℕ) (s : QState) (h : GenDead m r s) :
    GenDead m r (cancelMeeting s m2).1 := by
  obtain ⟨h1, h2⟩ := h
  unfold cancelMeeting
  cases hc : s.meetings m2 with
  | none => exact ⟨h1, h2⟩
  | some mt2 =>
    refine ⟨h1, ?_⟩
    by_cases hmm : m = m2
    · subst hmm
      simp [setMeeting_self]
    · simp only [setMeeting, if_neg hmm]
      exact h2

/-- Popping an entry never revives a dead generation. -/
theorem gendead_pop (m r : ℕ) (s : QState) (e : Entry) (rest : List Entry)
    (hp : List.Perm s.queue (e :: rest)) (h : GenDead m r s) :
    GenDead m r ⟨rest, s.meetings⟩ :=
  ⟨fun x hx hid => h.1 x (hp.mem_iff.mpr (List.mem_cons_of_mem _ hx)) hid, h.2⟩

/-- `_join_meeting` never revives a dead generation. -/
theorem gendead_join (m r : ℕ) (cb : ℕ → String → Bool) (s : QState) (m2 : ℕ)
    (url : String) (rr : ℕ) (u : Bool) (now : ℚ) (h : GenDead m r s) :
    GenDead m r (joinMeeting cb s m2 url rr u now).1 := by
  obtain ⟨h1, h2⟩ := h
  unfold joinMeeting
  by_cases hcb : cb m2 url = true
  · rw [if_pos hcb]
    refine ⟨h1, ?_⟩
    by_cases hmm : m = m2
    · subst hmm
      simp [setMeeting_self]
    · simp only [setMeeting, if_neg hmm]
      exact h2
  · rw [if_neg hcb]
    exact gendead_resched m r m2 (some (if u then 3 else 5)) now s ⟨h1, h2⟩

/-- A dead generation emits no callback invocation and stays dead, for any
single operation. -/
theorem gendead_step (m r : ℕ) (cb : ℕ → String → Bool) (s : QState)
    (op : QOp) (h : GenDead m r s) :
    honorCount m r (stepQ cb s op).2 = 0 ∧ GenDead m r (stepQ cb s op).1 := by
  cases op with
  | resched m2 d now => exact ⟨rfl, gendead_resched m r m2 d now s h⟩
  | check now => exact ⟨rfl, gendead_check m r now s h⟩
  | cancel m2 => exact ⟨rfl, gendead_cancel m r m2 s h⟩
  | proc now =>
    show honorCount m r (processNextMeeting cb s now).2 = 0 ∧
      GenDead m r (processNextMeeting cb s now).1
    unfold processNextMeeting
    cases hp : popMin s.queue with
    | none => exact ⟨rfl, h⟩
    | some pr =>
      obtain ⟨e, rest⟩ := pr
      by_cases ht : e.time ≤ now
      · have hperm := popMin_perm s.queue e rest hp
        have h1 : GenDead m r ⟨rest, s.meetings⟩ := gendead_pop m r s e rest hperm h
        simp only [hp]
        rw [if_pos ht]
        cases hm2 : s.meetings e.id with
        | none => exact ⟨rfl, h1⟩
        | some mt =>
          simp only [hm2]
          by_cases hr : mt.retry ≠ e.retry
          · rw [if_pos hr]
            exact ⟨rfl, h1⟩
          · rw [if_neg hr]
            have heq : mt.retry = e.retry := not_ne_iff.mp hr
            have hne : ¬(e.id = m ∧ mt.retry = r) := by
              rintro ⟨hid, hrr⟩
              have hein : e ∈ s.queue :=
                hperm.mem_iff.mpr (List.mem_cons_self e rest)
              exact h.1 e hein hid (by omega)
            constructor
            · rw [joinMeeting_events, honorCount_single, if_neg hne]
            · exact gendead_join m r cb ⟨rest, s.meetings⟩ e.id mt.url mt.retry
                mt.urgent now h1
      · simp only [hp]
        rw [if_neg ht]
        exact ⟨rfl, h⟩

/-- A dead generation is never honored along any run. -/
theorem gendead_run (m r : ℕ) (cb : ℕ → String → Bool) (s : QState)
    (ops : List QOp) (h : GenDead m r s) :
    honorCount m r (runQ cb s ops).2 = 0 := by
  induction ops generalizing s with
  | nil => rfl
  | cons op ops ih =>
    simp only [runQ]
    rw [honorCount_append]
    have hstep := gendead_step m r cb s op h
    rw [hstep.1, ih _ hstep.2]

/-- Any single operation performs at most one callback invocation. -/
theorem step_events_len (cb : ℕ → String → Bool) (s : QState) (op : QOp) :
    (stepQ cb s op).2.length ≤ 1 := by
  cases op with
  | resched m2 d now => exact Nat.zero_le 1
  | check now => exact Nat.zero_le 1
  | cancel m2 => exact Nat.zero_le 1
  | proc now =>
    show (processNextMeeting cb s now).2.length ≤ 1
    unfold processNextMeeting
    cases hp : popMin s.queue with
    | none => exact Nat.zero_le 1
    | some pr =>
      obtain ⟨e, rest⟩ := pr
      by_cases ht : e.time ≤ now
      · simp only [hp]
        rw [if_pos ht]
        cases hm2 : s.meetings e.id with
        | none => exact Nat.zero_le 1
        | some mt =>
          simp only [hm2]
          by_cases hr : mt.retry ≠ e.retry
          · rw [if_pos hr]
            exact Nat.zero_le 1
          · rw [if_neg hr]
            rw [joinMeeting_events]
            exact Nat.le_refl 1
      · simp only [hp]
        rw [if_neg ht]
        exact Nat.zero_le 1

/-- If an operation honors generation `(m, r)` — i.e. a callback invocation
with fencing token `r` for meeting `m` occurs — then, assuming the queue
invariant held beforehand, that generation is dead afterwards: its heap
entry is gone (the tokens of `m`'s entries were pairwise distinct) and the
stored retry count has either moved past `r` or is stuck at `r` with the
budget exhausted. -/
theorem honor_gendead_step (m r : ℕ) (cb : ℕ → String → Bool) (s : QState)
    (op : QOp) (hInv : QueueInv m s)
    (hpos : honorCount m r (stepQ cb s op).2 ≠ 0) :
    GenDead m r (stepQ cb s op).1 := by
  cases op with
  | resched m2 d now => exact absurd rfl hpos
  | check now => exact absurd rfl hpos
  | cancel m2 => exact absurd rfl hpos
  | proc now =>
    have hpos' : honorCount m r (processNextMeeting cb s now).2 ≠ 0 := hpos
    show GenDead m r (processNextMeeting cb s now).1
    unfold processNextMeeting at hpos' ⊢
    cases hp : popMin s.queue with
    | none =>
      simp only [hp] at hpos'
      exact absurd rfl hpos'
    | some pr =>
      obtain ⟨e, rest⟩ := pr
      simp only [hp] at hpos' ⊢
      by_cases ht : e.time ≤ now
      · rw [if_pos ht] at hpos' ⊢
        have hperm := popMin_perm s.queue e rest hp
        cases hm2 : s.meetings e.id with
        | none =>
          simp only [hm2] at hpos'
          exact absurd rfl hpos'
        | some mt =>
          simp only [hm2] at hpos' ⊢
          by_cases hr : mt.retry ≠ e.retry
          · rw [if_pos hr] at hpos'
            exact absurd rfl hpos'
          · rw [if_neg hr] at hpos' ⊢
            rw [joinMeeting_events, honorCount_single] at hpos'
            have hcond : e.id = m ∧ mt.retry = r := by
              by_contra hc
              rw [if_neg hc] at hpos'
              exact hpos' rfl
            obtain ⟨hid, hrr⟩ := hcond
            subst hid
            have heq : mt.retry = e.retry := not_ne_iff.mp hr
            have hInv' : (∀ x ∈ s.queue, x.id = e.id → x.retry ≤ mt.retry) ∧
                s.queue.Pairwise (distinctTok e.id) := by
              simpa only [QueueInv, hm2] using hInv
            have hrest : ∀ x ∈ rest, x.id = e.id → x.retry ≠ r := by
              intro x hx hxid hxr
              have hpair :=
                (hperm.pairwise_iff (fun hab => distinctTok_symm e.id hab)).mp hInv'.2
              have hd := (List.pairwise_cons.mp hpair).1 x hx rfl hxid
              exact hd (by omega)
            unfold joinMeeting
            by_cases hcb : cb e.id mt.url = true
            · rw [if_pos hcb]
              refine ⟨fun x hx hxid => hrest x hx hxid, ?_⟩
              simp [setMeeting_self]
            · rw [if_neg hcb]
              unfold rescheduleMeeting
              simp only [hm2]
              by_cases hle : mt.maxRetries ≤ mt.retry
              · simp only [hle, if_true]
                refine ⟨fun x hx hxid => hrest x hx hxid, ?_⟩
                simp only [hm2]
                exact Or.inr ⟨hrr, hle⟩
              · simp only [hle, if_false]
                refine ⟨?_, ?_⟩
                · intro x hx hxid
                  rcases List.mem_cons.mp hx with rfl | hmem
                  · show mt.retry + 1 ≠ r
                    omega
                  · exact hrest x hmem hxid
                · simp only [setMeeting_self]
                  left
                  show r < mt.retry + 1
                  omega
      · rw [if_neg ht] at hpos'
        exact absurd rfl hpos'

/-- Along any run from a state satisfying the queue invariant for meeting
`m`, each generation `r` is honored at most once. -/
theorem fencing_run (m r : ℕ) (cb : ℕ → String → Bool) (s : QState)
    (ops : List QOp) (hInv : QueueInv m s) :
    honorCount m r (runQ cb s ops).2 ≤ 1 := by
  induction ops generalizing s with
  | nil => exact Nat.zero_le 1
  | cons op ops ih =>
    simp only [runQ]
    rw [honorCount_append]
    by_cases h0 : honorCount m r (stepQ cb s op).2 = 0
    · rw [h0]
      simpa using ih _ (inv_step m cb s op hInv)
    · have hgd := honor_gendead_step m r cb s op hInv h0
      have hz := gendead_run m r cb _ ops hgd
      rw [hz]
      have hb := le_trans (honorCount_le_length m r (stepQ cb s op).2)
        (step_events_len cb s op)
      omega

/-- C1: fencing correctness. (a) A due popped entry that is stale — its
meeting id is absent from the meetings dict, or its retry-count fencing
token differs from the stored retry count — is silently discarded: the
state only loses the popped entry and the join callback is not invoked.
(b) Along any sequence of operations (processor ticks, reschedules, urgency
checks, cancellations) from a state satisfying the per-meeting queue
invariant, each scheduling generation `r` of a meeting `m` is honored at
most once. -/
theorem C1_fencing (cb : ℕ → String → Bool) :
    (∀ (s : QState) (now : ℚ) (e : Entry) (rest : List Entry),
      popMin s.queue = some (e, rest) → e.time ≤ now → staleEntry s e →
      processNextMeeting cb s now = (⟨rest, s.meetings⟩, [])) ∧
    (∀ (m r : ℕ) (s : QState) (ops : List QOp),
      QueueInv m s → honorCount m r (runQ cb s ops).2 ≤ 1) :=
  ⟨fun s now e rest hpop hdue hstale =>
      processNext_discards_stale cb s now e rest hpop hdue hstale,
    fun m r s ops hInv => fencing_run m r cb s ops hInv⟩

/-- Witness for `C1_fencing`: a popped entry with token 0 against a stored
retry count of 2 is discarded without a callback, and a two-tick run from
an invariant-satisfying one-meeting state honors generation 0 at most
once. -/
theorem C1_fencing_witness :
    (processNextMeeting (fun _ _ => true)
        ⟨[⟨5, 1, "u", 0⟩], setMeeting (fun _ => none) 1 (some ⟨5, "u", 2, 5, false⟩)⟩ 6 =
      (⟨[], setMeeting (fun _ => none) 1 (some ⟨5, "u", 2, 5, false⟩)⟩, [])) ∧
    honorCount 1 0 (runQ (fun _ _ => true)
        ⟨[⟨5, 1, "u", 0⟩], setMeeting (fun _ => none) 1 (some ⟨5, "u", 0, 5, false⟩)⟩
        [QOp.proc 6, QOp.proc 7]).2 ≤ 1 := by
  constructor
  · exact (C1_fencing (fun _ _ => true)).1
      ⟨[⟨5, 1, "u", 0⟩], setMeeting (fun _ => none) 1 (some ⟨5, "u", 2, 5, false⟩)⟩ 6
      ⟨5, 1, "u", 0⟩ [] rfl (by norm_num) (by simp [staleEntry, setMeeting])
  · exact (C1_fencing (fun _ _ => true)).2 1 0
      ⟨[⟨5, 1, "u", 0⟩], setMeeting (fun _ => none) 1 (some ⟨5, "u", 0, 5, false⟩)⟩
      [QOp.proc 6, QOp.proc 7] (by simp [QueueInv, setMeeting])

/-!
Part 2 models the emotion/transcript extraction engine
(`src/analytics/processor.py`, class `AnalyticsProcessor`).

Modelling conventions:
* Scores and times are rationals (Python floats; only field arithmetic and
  comparisons are involved here).
* A parsed emotion frame is a time plus a list of named scores, exactly the
  dicts `{"time": …, "emotions": [{"name": …, "score": …}, …]}` the
  extraction code builds.
* Python dicts used as accumulators (`emotion_totals`) are modelled as
  association lists with first-occurrence update, which preserves dict
  lookup semantics.
-/

/-- One `{"name": …, "score": …}` emotion dict. -/
structure EmotionScore where
  name : String
  score : ℚ
  deriving DecidableEq, Repr

/-- One `{"time": …, "emotions": […]}` frame dict. -/
structure Frame where
  time : ℚ
  emotions : List EmotionScore
  deriving DecidableEq, Repr

/-- `emotion_totals[name] = emotion_totals.get(name, 0) + score`: dict
update, adding into an existing key in place or appending a new key. -/
def upsertAdd : List (String × ℚ) → String → ℚ → List (String × ℚ)
  | [], name, sc => [(name, sc)]
  | (n, v) :: rest, name, sc =>
    if n = name then (n, v + sc) :: rest else (n, v) :: upsertAdd rest name sc

/-- The inner loop of `_average_emotions_for_segment`: accumulate one
frame's emotion scores into the totals dict. -/
def addFrameEmotions (acc : List (String × ℚ)) (es : List EmotionScore) :
    List (String × ℚ) :=
  es.foldl (fun a e => upsertAdd a e.name e.score) acc

/-- `AnalyticsProcessor._average_emotions_for_segment(frames, start_time,
end_time)`: select the frames in the closed window, return `{}` when none,
else divide per-name totals by the number of selected frames. -/
def averageEmotionsForSegment (frames : List Frame) (startT endT : ℚ) :
    List (String × ℚ) :=
  let selected := frames.filter fun f =>
    decide (startT ≤ f.time) && decide (f.time ≤ endT)
  if selected.isEmpty then []
  else
    let totals := selected.foldl (fun acc f => addFrameEmotions acc f.emotions) []
    totals.map fun p => (p.1, p.2 / (selected.length : ℚ))

/-- Sum, over one frame's emotion list, of the scores carried under a given
name. -/
def sumScoresES (name : String) (es : List EmotionScore) : ℚ :=
  ((es.filter fun e => e.name == name).map EmotionScore.score).sum

/-- Sum of a given emotion's scores over a list of frames (0 contribution
from frames lacking it). -/
def sumScoresFor (name : String) (fs : List Frame) : ℚ :=
  (fs.map fun f => sumScoresES name f.emotions).sum

/-- Dict lookup (`d.get(name)`), as an association-list scan. -/
def lookupQ (name : String) : List (String × ℚ) → Option ℚ
  | [] => none
  | (n, v) :: rest => if name = n then some v else lookupQ name rest

/-- Dict lookup after an upsert. -/
theorem lookupQ_upsertAdd (acc : List (String × ℚ)) (n name : String) (sc : ℚ) :
    lookupQ name (upsertAdd acc n sc) =
      if name = n then some ((lookupQ name acc).getD 0 + sc)
      else lookupQ name acc := by
  induction acc with
  | nil =>
    by_cases h : name = n <;> simp [upsertAdd, lookupQ, h]
  | cons p rest ih =>
    obtain ⟨pn, pv⟩ := p
    by_cases hpn : pn = n
    · subst hpn
      by_cases h : name = pn
      · subst h
        simp [upsertAdd, lookupQ]
      · simp [upsertAdd, lookupQ, h]
    · by_cases h : name = pn
      · subst h
        simp [upsertAdd, lookupQ, hpn]
      · simp [upsertAdd, lookupQ, hpn, h, ih]

/-- Dict lookup after folding one frame's emotions into the totals. -/
theorem lookupQ_addFrame (es : List EmotionScore) :
    ∀ (acc : List (String × ℚ)) (name : String),
    lookupQ name (addFrameEmotions acc es) =
      if (lookupQ name acc).isSome = true ∨
          es.any (fun e => e.name == name) = true then
        some ((lookupQ name acc).getD 0 + sumScoresES name es)
      else none := by
  induction es with
  | nil =>
    intro acc name
    cases ho : lookupQ name acc <;>
      simp [addFrameEmotions, sumScoresES, ho]
  | cons e es ih =>
    intro acc name
    have hfold : addFrameEmotions acc (e :: es) =
        addFrameEmotions (upsertAdd acc e.name e.score) es := rfl
    rw [hfold, ih]
    by_cases hn : name = e.name
    · have hbeq : (e.name == name) = true := by simp [hn]
      rw [lookupQ_upsertAdd, if_pos hn]
      have hsum : sumScoresES name (e :: es) = e.score + sumScoresES name es := by
        simp [sumScoresES, List.filter_cons, hbeq]
      simp [List.any_cons, hbeq, hsum, add_assoc]
    · have hbeq : (e.name == name) = false := by
        simp [beq_eq_false_iff_ne]
        exact fun hc => hn hc.symm
      rw [lookupQ_upsertAdd, if_neg hn]
      have hsum : sumScoresES name (e :: es) = sumScoresES name es := by
        simp [sumScoresES, List.filter_cons, hbeq]
      simp [List.any_cons, hbeq, hsum]

/-- Dict lookup after folding all selected frames into the totals. -/
theorem lookupQ_totals (sel : List Frame) :
    ∀ (acc : List (String × ℚ)) (name : String),
    lookupQ name (sel.foldl (fun acc f => addFrameEmotions acc f.emotions) acc) =
      if (lookupQ name acc).isSome = true ∨
          sel.any (fun f => f.emotions.any fun e => e.name == name) = true then
        some ((lookupQ name acc).getD 0 + sumScoresFor name sel)
      else none := by
  induction sel with
  | nil =>
    intro acc name
    cases ho : lookupQ name acc <;> simp [sumScoresFor, ho]
  | cons f fs ih =>
    intro acc name
    have hfold : (f :: fs).foldl (fun acc f => addFrameEmotions acc f.emotions) acc =
        fs.foldl (fun acc f => addFrameEmotions acc f.emotions)
          (addFrameEmotions acc f.emotions) := rfl
    rw [hfold, ih, lookupQ_addFrame]
    have hsum : sumScoresFor name (f :: fs) =
        sumScoresES name f.emotions + sumScoresFor name fs := by
      simp [sumScoresFor]
    by_cases hf : (f.emotions.any fun e => e.name == name) = true
    · simp [List.any_cons, hf, hsum, add_assoc]
    · have hf' : (f.emotions.any fun e => e.name == name) = false :=
        Bool.eq_false_iff.mpr hf
      have hz : sumScoresES name f.emotions = 0 := by
        have : f.emotions.filter (fun e => e.name == name) = [] := by
          rw [List.filter_eq_nil_iff]
          intro e he
          have := List.any_eq_false.mp hf' e he
          simpa using this
        simp [sumScoresES, this]
      cases ho : lookupQ name acc <;>
        simp [List.any_cons, hf', ho, hsum, hz, add_assoc]

/-- Dict lookup commutes with the final per-name division. -/
theorem lookupQ_map_scale (l : List (String × ℚ)) (name : String) (c : ℚ) :
    lookupQ name (l.map fun p => (p.1, p.2 / c)) =
      (lookupQ name l).map fun v => v / c := by
  induction l with
  | nil => simp [lookupQ]
  | cons p rest ih =>
    obtain ⟨pn, pv⟩ := p
    by_cases h : name = pn <;> simp [lookupQ, h, ih]

/-- C4: `_average_emotions_for_segment` selects exactly the frames with
`start ≤ time ≤ end` (both bounds inclusive); with no selected frame it
returns the empty mapping; and every emotion name appearing in some
selected frame maps to the sum of its scores over the selected frames
divided by the number of selected frames (frames lacking the emotion
contribute 0 to the sum but still count in the divisor). -/
theorem C4_averageEmotions (frames : List Frame) (startT endT : ℚ) :
    ((frames.filter fun f => decide (startT ≤ f.time) && decide (f.time ≤ endT)) = [] →
      averageEmotionsForSegment frames startT endT = []) ∧
    (∀ name : String,
      (∃ f ∈ frames.filter fun f => decide (startT ≤ f.time) && decide (f.time ≤ endT),
        ∃ e ∈ f.emotions, e.name = name) →
      lookupQ name (averageEmotionsForSegment frames startT endT) =
        some (sumScoresFor name
            (frames.filter fun f => decide (startT ≤ f.time) && decide (f.time ≤ endT)) /
          ((frames.filter fun f =>
            decide (startT ≤ f.time) && decide (f.time ≤ endT)).length : ℚ))) := by
  constructor
  · intro h
    simp [averageEmotionsForSegment, h]
  · intro name hex
    have hne : (frames.filter fun f =>
        decide (startT ≤ f.time) && decide (f.time ≤ endT)) ≠ [] := by
      rintro hnil
      obtain ⟨f, hf, _⟩ := hex
      rw [hnil] at hf
      exact absurd hf (List.not_mem_nil f)
    have hany : ((frames.filter fun f =>
        decide (startT ≤ f.time) && decide (f.time ≤ endT)).any
          fun f => f.emotions.any fun e => e.name == name) = true := by
      obtain ⟨f, hf, e, he, hname⟩ := hex
      exact List.any_eq_true.mpr
        ⟨f, hf, List.any_eq_true.mpr ⟨e, he, by simp [hname]⟩⟩
    unfold averageEmotionsForSegment
    rw [if_neg (by simpa [List.isEmpty_iff] using hne)]
    rw [lookupQ_map_scale, lookupQ_totals]
    rw [if_pos (Or.inr hany)]
    simp [lookupQ]

/-- Witness for `C4_averageEmotions`: two frames in window, "Joy" present
only in the first, so its average is 2 / 2 = 1. -/
theorem C4_averageEmotions_witness :
    lookupQ "Joy" (averageEmotionsForSegment
      [⟨1, [⟨"Joy", 2⟩]⟩, ⟨2, [⟨"Fear", 1⟩]⟩] 0 10) = some 1 := by
  have hx : ∃ f ∈ ([⟨1, [⟨"Joy", 2⟩]⟩, ⟨2, [⟨"Fear", 1⟩]⟩] : List Frame).filter
      (fun f => decide ((0 : ℚ) ≤ f.time) && decide (f.time ≤ (10 : ℚ))),
      ∃ e ∈ f.emotions, e.name = "Joy" := by
    refine ⟨⟨1, [⟨"Joy", 2⟩]⟩, List.mem_filter.mpr ⟨by simp, by norm_num⟩,
      ⟨"Joy", 2⟩, by simp, rfl⟩
  have h := (C4_averageEmotions [⟨1, [⟨"Joy", 2⟩]⟩, ⟨2, [⟨"Fear", 1⟩]⟩] 0 10).2 "Joy" hx
  rw [h]
  have hfj : (("Fear" : String) == "Joy") = false := by decide
  norm_num [sumScoresFor, sumScoresES, List.filter, hfj]

/-!
### Raw frame extraction (C5)

`_extract_emotion_frames_from_raw` first collects regex matches
`FacePrediction(frame=…, time=<time>, …, emotions=[<emotions>]` and, per
block, `EmotionScore(name='<name>', score=<score>` pairs. The regex
matching itself is abstracted: a `RawBlock` is one outer match, carrying
the captured time string and the list of captured `(name, score-string)`
pairs. The per-match loop (processor.py lines 489–512) is translated
below. The capture groups for time and score match `[0-9.]+`, and Python's
`float()` accepts such a string exactly when it has at least one digit and
at most one dot; its value is the decimal it denotes.
-/

/-- Numeric value of a digit string (most significant first). -/
def digitsVal (cs : List Char) : ℕ :=
  cs.foldl (fun a c => a * 10 + (c.toNat - 48)) 0

/-- Python `float()` restricted to strings over digits and dots (the only
strings the `[0-9.]+` capture can produce): defined iff the string has at
least one digit and at most one dot. -/
def pyFloat (s : String) : Option ℚ :=
  let cs := s.toList
  if cs.any Char.isDigit && cs.all (fun c => c.isDigit || c == '.') &&
      decide (cs.count '.' ≤ 1) then
    let ip := cs.takeWhile (fun c => c ≠ '.')
    let fp := (cs.dropWhile (fun c => c ≠ '.')).drop 1
    some ((digitsVal ip : ℚ) + (digitsVal fp : ℚ) / (10 : ℚ) ^ fp.length)
  else none

/-- One outer regex match: the captured time string and the captured
`(name, score-string)` pairs of its `emotions=[…]` payload. -/
structure RawBlock where
  timeStr : String
  emotionMatches : List (String × String)
  deriving DecidableEq, Repr

/-- The per-match loop of `_extract_emotion_frames_from_raw`: skip a block
whose time does not parse, default an unparsable score to 0.0, and drop a
block that yields no emotion entries. -/
def extractEmotionFramesFromRaw : List RawBlock → List Frame
  | [] => []
  | b :: rest =>
    match pyFloat b.timeStr with
    | none => extractEmotionFramesFromRaw rest
    | some t =>
      let es := b.emotionMatches.map fun p =>
        (⟨p.1, (pyFloat p.2).getD 0⟩ : EmotionScore)
      if es.isEmpty then extractEmotionFramesFromRaw rest
      else ⟨t, es⟩ :: extractEmotionFramesFromRaw rest

/-- Spec-side reading of a well-formed block: the time parses and at least
one emotion pair was captured. -/
def wellFormedBlock (b : RawBlock) : Bool :=
  (pyFloat b.timeStr).isSome && !b.emotionMatches.isEmpty

/-- Spec-side frame built from a well-formed block. -/
def blockFrame (b : RawBlock) : Frame :=
  ⟨(pyFloat b.timeStr).getD 0,
    b.emotionMatches.map fun p => ⟨p.1, (pyFloat p.2).getD 0⟩⟩

/-- The extraction equals, in order, one frame per well-formed block. -/
theorem extract_eq_filter (blocks : List RawBlock) :
    extractEmotionFramesFromRaw blocks =
      (blocks.filter wellFormedBlock).map blockFrame := by
  induction blocks with
  | nil => rfl
  | cons b rest ih =>
    cases hpf : pyFloat b.timeStr with
    | none =>
      simp [extractEmotionFramesFromRaw, hpf, List.filter_cons, wellFormedBlock, ih]
    | some t =>
      by_cases hes : b.emotionMatches.isEmpty = true
      · have : (b.emotionMatches.map fun p =>
            (⟨p.1, (pyFloat p.2).getD 0⟩ : EmotionScore)).isEmpty = true := by
          cases hm : b.emotionMatches
          · rfl
          · rw [hm] at hes
            cases hes
        simp [extractEmotionFramesFromRaw, hpf, this, List.filter_cons,
          wellFormedBlock, hes, ih]
      · have hes' : b.emotionMatches ≠ [] := by
          intro hc
          rw [hc] at hes
          exact hes rfl
        have hmap : (b.emotionMatches.map fun p =>
            (⟨p.1, (pyFloat p.2).getD 0⟩ : EmotionScore)).isEmpty = false := by
          cases hm : b.emotionMatches
          · exact absurd hm hes'
          · rfl
        simp [extractEmotionFramesFromRaw, hpf, hmap, List.filter_cons,
          wellFormedBlock, hes, ih, blockFrame]

/-- C5: the extraction yields exactly one frame per well-formed block, in
input order; a block whose time string does not parse as a float is
skipped without disturbing the frames extracted from the surrounding
blocks; and no frame with an empty emotion list ever appears in the
output. -/
theorem C5_extractFrames :
    (∀ blocks : List RawBlock,
      extractEmotionFramesFromRaw blocks =
        (blocks.filter wellFormedBlock).map blockFrame) ∧
    (∀ (pre post : List RawBlock) (b : RawBlock), pyFloat b.timeStr = none →
      extractEmotionFramesFromRaw (pre ++ b :: post) =
        extractEmotionFramesFromRaw (pre ++ post)) ∧
    (∀ (blocks : List RawBlock) (f : Frame),
      f ∈ extractEmotionFramesFromRaw blocks → f.emotions ≠ []) := by
  refine ⟨extract_eq_filter, ?_, ?_⟩
  · intro pre post b hb
    rw [extract_eq_filter, extract_eq_filter]
    have hwf : wellFormedBlock b = false := by
      simp [wellFormedBlock, hb]
    simp [List.filter_append, List.filter_cons, hwf]
  · intro blocks f hf
    rw [extract_eq_filter] at hf
    obtain ⟨b, hb, rfl⟩ := List.mem_map.mp hf
    have hwf := (List.mem_filter.mp hb).2
    have hne : b.emotionMatches ≠ [] := by
      intro hc
      simp [wellFormedBlock, hc] at hwf
    simp [blockFrame]
    exact hne

/-- Witness for `C5_extractFrames`: a malformed-time block ("1.2.3"
has two dots, so `float()` raises) between two good blocks is skipped,
while a block with no captured emotions is dropped. -/
theorem C5_extractFrames_witness :
    pyFloat "1.2.3" = none ∧
    extractEmotionFramesFromRaw
        [⟨"1.5", [("Joy", "0.5")]⟩, ⟨"1.2.3", [("Joy", "0.5")]⟩, ⟨"2", []⟩] =
      extractEmotionFramesFromRaw [⟨"1.5", [("Joy", "0.5")]⟩, ⟨"2", []⟩] := by
  constructor
  · decide
  · exact (C5_extractFrames.2.1 [⟨"1.5", [("Joy", "0.5")]⟩] [⟨"2", []⟩]
      ⟨"1.2.3", [("Joy", "0.5")]⟩ (by decide))

/-!
### Question/answer matching (C6)

`_filter_relevant_questions` (processor.py lines 778–812) walks the
surviving questions; for question `i` the answer window runs from its
`time_seconds` to the next question's `time_seconds` (`float('inf')` for
the last question, modelled as an absent upper bound). A transcript
segment's `start` is a Python float; the code passes it through unchanged
when it is `< 1000` and otherwise divides it by 1000 (treating it as
milliseconds). Segments whose (normalized) start lies in the half-open
window are collected; if any exist, the one with the highest single
maximum averaged emotion score (first in list order on ties — Python's
`max`) becomes the representative response. Only the fields the code
reads (`start`, `avg_emotions`) are modelled on segments.
-/

/-- A transcript segment as seen by the matcher. -/
structure Segment where
  start : ℚ
  avgEmotions : List (String × ℚ)
  deriving DecidableEq, Repr

/-- A surviving question record (dict built at processor.py lines 758–763). -/
structure TQuestion where
  timestamp : String
  timeSeconds : ℚ
  text : String
  index : ℕ
  deriving DecidableEq, Repr

/-- One identified question-answer pair. -/
structure QAPair where
  question : String
  questionTimestamp : String
  response : Segment
  allResponseSegments : List Segment
  deriving DecidableEq, Repr

/-- The float-start normalization: starts below 1000 pass through,
larger ones are treated as milliseconds and divided by 1000. -/
def normStart (q : ℚ) : ℚ :=
  if q < 1000 then q else q / 1000

/-- `max(s.get("avg_emotions", {}).values()) if s.get("avg_emotions") else 0`. -/
def segKey (s : Segment) : ℚ :=
  match s.avgEmotions with
  | [] => 0
  | p :: rest => rest.foldl (fun a q => max a q.2) p.2

/-- Python's `max(xs, key=key)`: scan left to right, replacing the current
best only on a strictly larger key (so the first maximum wins). -/
def argmaxFirst (key : Segment → ℚ) : List Segment → Option Segment
  | [] => none
  | x :: xs => some (xs.foldl (fun b y => if key b < key y then y else b) x)

/-- Membership of a segment's normalized start in an answer window. -/
def inWindow (lo : ℚ) (hi : Option ℚ) (s : Segment) : Bool :=
  decide (lo ≤ normStart s.start) &&
    match hi with
    | none => true
    | some u => decide (normStart s.start < u)

/-- The question/answer matching loop of `_filter_relevant_questions`. -/
def matchQuestionsToResponses : List TQuestion → List Segment → List QAPair
  | [], _ => []
  | q :: rest, segs =>
    let hi : Option ℚ := match rest with
      | [] => none
      | q2 :: _ => some q2.timeSeconds
    let resp := segs.filter (inWindow q.timeSeconds hi)
    (match argmaxFirst segKey resp with
     | none => []
     | some best => [⟨q.text, q.timestamp, best, resp⟩]) ++
      matchQuestionsToResponses rest segs

/-- The claim's window test, on the raw (un-normalized) segment start. -/
def inWindowClaim (lo : ℚ) (hi : Option ℚ) (s : Segment) : Bool :=
  decide (lo ≤ s.start) &&
    match hi with
    | none => true
    | some u => decide (s.start < u)

/-- C6 counterexample. A single question at 1100 s and a single segment
starting at 1200 s: per the claim the segment's start lies in the window
[1100, ∞) and exactly one pair must be produced; the code first divides
the start by 1000 (1200 ≥ 1000 is treated as milliseconds), getting 1.2,
which is below 1100, so no pair is produced. -/
theorem C6_qaWindows_counterexample :
    inWindowClaim 1100 none ⟨1200, [("Joy", 1)]⟩ = true ∧
    matchQuestionsToResponses [⟨"18:20", 1100, "Can you describe X?", 0⟩]
        [⟨1200, [("Joy", 1)]⟩] = [] := by
  constructor
  · norm_num [inWindowClaim]
  · norm_num [matchQuestionsToResponses, inWindow, normStart, argmaxFirst,
      List.filter]

/-- Invariant of Python `max`'s left fold: either the seed survives and
bounds every element, or the result is the first element strictly
exceeding everything before it (and at least everything after it). -/
theorem foldl_argmax_first (key : Segment → ℚ) :
    ∀ (xs : List Segment) (b : Segment),
      (xs.foldl (fun b y => if key b < key y then y else b) b = b ∧
        ∀ y ∈ xs, key y ≤ key b) ∨
      (∃ l1 c l2, xs = l1 ++ c :: l2 ∧
        xs.foldl (fun b y => if key b < key y then y else b) b = c ∧
        key b < key c ∧ (∀ y ∈ l1, key y < key c) ∧
        (∀ y ∈ l2, key y ≤ key c)) := by
  intro xs
  induction xs with
  | nil => intro b; exact Or.inl ⟨rfl, by simp⟩
  | cons y ys ih =>
    intro b
    by_cases hy : key b < key y
    · rcases ih y with ⟨heq, hall⟩ | ⟨l1, c, l2, hys, heq, hb, h1, h2⟩
      · refine Or.inr ⟨[], y, ys, by simp, ?_, hy, by simp, hall⟩
        simp only [List.foldl_cons, if_pos hy]
        exact heq
      · refine Or.inr ⟨y :: l1, c, l2, by simp [hys], ?_, lt_trans hy hb, ?_, h2⟩
        · simp only [List.foldl_cons, if_pos hy]
          exact heq
        · intro z hz
          rcases List.mem_cons.mp hz with rfl | hz1
          · exact hb
          · exact h1 z hz1
    · rcases ih b with ⟨heq, hall⟩ | ⟨l1, c, l2, hys, heq, hb, h1, h2⟩
      · refine Or.inl ⟨?_, ?_⟩
        · simp only [List.foldl_cons, if_neg hy]
          exact heq
        · intro z hz
          rcases List.mem_cons.mp hz with rfl | hz1
          · exact le_of_not_lt hy
          · exact hall z hz1
      · refine Or.inr ⟨y :: l1, c, l2, by simp [hys], ?_, hb, ?_, h2⟩
        · simp only [List.foldl_cons, if_neg hy]
          exact heq
        · intro z hz
          rcases List.mem_cons.mp hz with rfl | hz1
          · exact lt_of_le_of_lt (le_of_not_lt hy) hb
          · exact h1 z hz1

/-- The matching loop, re-expressed the way the spec describes it: for the
`i`-th surviving question the window is
`[q_i.time_seconds, q_{i+1}.time_seconds)` (no upper bound for the last
question), applied to normalized segment starts. -/
theorem matchQ_index_eq :
    ∀ (qs : List TQuestion) (segs : List Segment),
    matchQuestionsToResponses qs segs =
      (List.range qs.length).filterMap fun i =>
        match qs.get? i with
        | none => none
        | some q =>
          let hi : Option ℚ := match qs.get? (i + 1) with
            | none => none
            | some q2 => some q2.timeSeconds
          let resp := segs.filter (inWindow q.timeSeconds hi)
          match argmaxFirst segKey resp with
          | none => none
          | some best => some ⟨q.text, q.timestamp, best, resp⟩ := by
  intro qs
  induction qs with
  | nil => intro segs; rfl
  | cons q rest ih =>
    intro segs
    rw [List.length_cons, List.range_succ_eq_map, List.filterMap_cons,
      List.filterMap_map]
    have htail : (List.filterMap
        ((fun i =>
          match (q :: rest).get? i with
          | none => none
          | some q' =>
            let hi : Option ℚ := match (q :: rest).get? (i + 1) with
              | none => none
              | some q2 => some q2.timeSeconds
            let resp := segs.filter (inWindow q'.timeSeconds hi)
            match argmaxFirst segKey resp with
            | none => none
            | some best => some ⟨q'.text, q'.timestamp, best, resp⟩) ∘ Nat.succ)
        (List.range rest.length)) = matchQuestionsToResponses rest segs := by
      rw [ih segs]
      rfl
    rw [htail]
    simp only [matchQuestionsToResponses, List.get?_cons_zero, List.get?_cons_succ]
    cases rest with
    | nil =>
      cases hmax : argmaxFirst segKey (segs.filter (inWindow q.timeSeconds none)) with
      | none => simp [hmax]
      | some best => simp [hmax]
    | cons q2 rest2 =>
      cases hmax : argmaxFirst segKey
          (segs.filter (inWindow q.timeSeconds (some q2.timeSeconds))) with
      | none => simp [hmax]
      | some best => simp [hmax]

/-- C6 (amended): each surviving question's answer window is the half-open
interval from its own time to the next surviving question's time (no upper
bound for the last question), applied to NORMALIZED segment starts (starts
at or above 1000 are treated as milliseconds and divided by 1000 first); a
question whose window captures no segment yields no pair, one with at
least one captured segment yields exactly one pair; and the representative
response returned by the Python `max` is the first in-window segment whose
single maximum averaged emotion score is strictly above every earlier
segment's and at least every later segment's. -/
theorem C6_qaWindows_amended :
    (∀ (qs : List TQuestion) (segs : List Segment),
      matchQuestionsToResponses qs segs =
        (List.range qs.length).filterMap fun i =>
          match qs.get? i with
          | none => none
          | some q =>
            let hi : Option ℚ := match qs.get? (i + 1) with
              | none => none
              | some q2 => some q2.timeSeconds
            let resp := segs.filter (inWindow q.timeSeconds hi)
            match argmaxFirst segKey resp with
            | none => none
            | some best => some ⟨q.text, q.timestamp, best, resp⟩) ∧
    (∀ (l : List Segment) (c : Segment), argmaxFirst segKey l = some c →
      ∃ l1 l2, l = l1 ++ c :: l2 ∧ (∀ y ∈ l1, segKey y < segKey c) ∧
        (∀ y ∈ l2, segKey y ≤ segKey c)) := by
  refine ⟨matchQ_index_eq, ?_⟩
  intro l c hc
  cases l with
  | nil => cases hc
  | cons x xs =>
    simp only [argmaxFirst, Option.some.injEq] at hc
    rcases foldl_argmax_first segKey xs x with ⟨heq, hall⟩ |
        ⟨l1, c', l2, hxs, heq, hb, h1, h2⟩
    · rw [heq] at hc
      subst hc
      exact ⟨[], xs, rfl, by simp, hall⟩
    · rw [heq] at hc
      subst hc
      refine ⟨x :: l1, l2, by simp [hxs], ?_, h2⟩
      intro y hy
      rcases List.mem_cons.mp hy with rfl | hy1
      · exact hb
      · exact h1 y hy1

/-- Witness for `C6_qaWindows_amended`: the window reformulation at a
concrete two-question input, and the first-maximum characterization of the
representative response on a concrete segment list. -/
theorem C6_qaWindows_amended_witness :
    (matchQuestionsToResponses
        [⟨"00:00", 0, "Can you describe X?", 0⟩, ⟨"01:40", 100, "Why?", 1⟩]
        [⟨5, [("Joy", 1)]⟩, ⟨150, [("Awe", 2)]⟩] =
      (List.range 2).filterMap fun i =>
        match ([⟨"00:00", 0, "Can you describe X?", 0⟩,
            ⟨"01:40", 100, "Why?", 1⟩] : List TQuestion).get? i with
        | none => none
        | some q =>
          let hi : Option ℚ := match ([⟨"00:00", 0, "Can you describe X?", 0⟩,
              ⟨"01:40", 100, "Why?", 1⟩] : List TQuestion).get? (i + 1) with
            | none => none
            | some q2 => some q2.timeSeconds
          let resp := ([⟨5, [("Joy", 1)]⟩, ⟨150, [("Awe", 2)]⟩] : List Segment).filter
            (inWindow q.timeSeconds hi)
          match argmaxFirst segKey resp with
          | none => none
          | some best => some ⟨q.text, q.timestamp, best, resp⟩) ∧
    (∃ l1 l2, ([⟨0, [("A", 5)]⟩, ⟨1, [("B", 3)]⟩] : List Segment) =
        l1 ++ (⟨0, [("A", 5)]⟩ : Segment) :: l2 ∧
      (∀ y ∈ l1, segKey y < segKey (⟨0, [("A", 5)]⟩ : Segment)) ∧
      (∀ y ∈ l2, segKey y ≤ segKey (⟨0, [("A", 5)]⟩ : Segment))) := by
  constructor
  · exact C6_qaWindows_amended.1
      [⟨"00:00", 0, "Can you describe X?", 0⟩, ⟨"01:40", 100, "Why?", 1⟩]
      [⟨5, [("Joy", 1)]⟩, ⟨150, [("Awe", 2)]⟩]
  · refine C6_qaWindows_amended.2 [⟨0, [("A", 5)]⟩, ⟨1, [("B", 3)]⟩] _ ?_
    norm_num [argmaxFirst, segKey]

/-!
### Transcript question filtering (C7)

Question extraction in `_filter_relevant_questions` (processor.py lines
719–775): the transcript is split on newlines; a line without `'|'` is
skipped; otherwise `parts = line.split('|', 1)`, the candidate text is
`parts[1].strip()` (note: this still carries the `speaker:` label), the
"speaker" the code tests is `parts[1].strip().split('\n')[0]` — which, for
a newline-free line, is that same whole text. A line whose "speaker"
contains the known candidate's name `"Daniel Kraft"` is skipped; a line
counts as a question when the text contains `'?'` or one of the fixed
lead phrases (lower-cased containment); the timestamp is `parts[0]`
stripped (defaulting to `"00:00"` when empty) and converted via
`minutes:seconds` (0 on any parse failure). Candidates containing a
deny-list phrase are then filtered out.
-/

/-- Python `str.split(sep)` for a single-character separator. -/
def splitOnChar (c : Char) : List Char → List (List Char)
  | [] => [[]]
  | x :: rest =>
    match splitOnChar c rest with
    | [] => [[]]
    | hd :: tl => if x = c then [] :: hd :: tl else (x :: hd) :: tl

/-- Python `str.strip()`. -/
def pyStrip (s : String) : String :=
  String.mk (((s.toList.dropWhile Char.isWhitespace).reverse.dropWhile
    Char.isWhitespace).reverse)

/-- Python `str.lower()`. -/
def toLowerStr (s : String) : String :=
  String.mk (s.toList.map Char.toLower)

/-- Substring occurrence on character lists. -/
def isSubstr (pat : List Char) : List Char → Bool
  | [] => pat.isEmpty
  | c :: rest => pat.isPrefixOf (c :: rest) || isSubstr pat rest

/-- Python `pat in hay` on strings. -/
def containsSub (hay pat : String) : Bool :=
  isSubstr pat.toList hay.toList

/-- Python `int()` on a string: strip, optional sign, all digits. -/
def pyInt (s : String) : Option ℤ :=
  match (pyStrip s).toList with
  | '-' :: ds =>
    if !ds.isEmpty && ds.all Char.isDigit then some (-(digitsVal ds : ℤ)) else none
  | '+' :: ds =>
    if !ds.isEmpty && ds.all Char.isDigit then some (digitsVal ds : ℤ) else none
  | ds =>
    if !ds.isEmpty && ds.all Char.isDigit then some (digitsVal ds : ℤ) else none

/-- `minutes, seconds = timestamp.split(':'); int(minutes)*60 +
int(seconds)`, with the whole expression defaulting to 0 on any failure
(wrong number of parts, or non-numeric part). -/
def parseTimestamp (ts : String) : ℚ :=
  match (splitOnChar ':' ts.toList).map String.mk with
  | [mstr, sstr] =>
    match pyInt mstr, pyInt sstr with
    | some mv, some sv => ((mv * 60 + sv : ℤ) : ℚ)
    | _, _ => 0
  | _ => 0

/-- The fixed lead phrases marking a likely question. -/
def questionIndicators : List String :=
  ["tell me about", "what is", "how would", "describe",
    "explain", "can you", "do you", "have you"]

/-- The deny-list of small-talk / technical patterns. -/
def irrelevantPatterns : List String :=
  ["how are you", "nice to meet", "your name", "introduce yourself",
    "weather", "doing today", "go for it", "pan", "testing", "hear me",
    "can you see", "technical", "connection"]

/-- `parts = line.split('|', 1)` when the line contains a bar. -/
def splitBarOnce (line : String) : Option (String × String) :=
  let cs := line.toList
  if cs.contains '|' then
    some (String.mk (cs.takeWhile fun c => c ≠ '|'),
      String.mk ((cs.dropWhile fun c => c ≠ '|').drop 1))
  else none

/-- `parts[1].strip().split('\n')[0]`: the "speaker" the code inspects —
for a newline-free line this is the whole stripped after-bar portion,
speaker label and question text included. -/
def speakerOf (post : String) : String :=
  String.mk ((pyStrip post).toList.takeWhile fun c => c ≠ '\n')

/-- Candidate-question extraction for one transcript line (loop body at
processor.py lines 724–763). -/
def candidateOfLine (i : ℕ) (line : String) : Option TQuestion :=
  match splitBarOnce line with
  | none => none
  | some (pre, post) =>
    let text := pyStrip post
    if containsSub (speakerOf post) "Daniel Kraft" then none
    else if containsSub text "?" ||
        (questionIndicators.any fun p => containsSub (toLowerStr text) p) then
      let timestamp := if pyStrip pre = "" then "00:00" else pyStrip pre
      some ⟨timestamp, parseTimestamp timestamp, text, i⟩
    else none

/-- All candidate questions of a transcript. -/
def candidateQuestions (transcript : String) : List TQuestion :=
  (((splitOnChar '\n' transcript.toList).map String.mk).enum).filterMap
    fun p => candidateOfLine p.1 p.2

/-- A candidate survives when no deny-list pattern occurs in its
(lower-cased) text. -/
def survivesDenyList (q : TQuestion) : Bool :=
  !(irrelevantPatterns.any fun p => containsSub (toLowerStr q.text) p)

/-- The surviving questions of a transcript. -/
def relevantQuestions (transcript : String) : List TQuestion :=
  (candidateQuestions transcript).filter survivesDenyList

/-- C7 counterexample. In the line
`"00:05 | Interviewer: Did Daniel Kraft explain the process?"` the speaker
is `"Interviewer"` (not the candidate), the text contains a question mark,
and no deny-list phrase occurs — so the claim requires a question. The
code, however, applies the candidate-name test to the whole portion after
the bar, which mentions `"Daniel Kraft"` inside the question text, so the
line is skipped and no question is produced. -/
theorem C7_questionFilter_counterexample :
    containsSub "Interviewer" "Daniel Kraft" = false ∧
    containsSub "Interviewer: Did Daniel Kraft explain the process?" "?" = true ∧
    (irrelevantPatterns.any fun p =>
      containsSub (toLowerStr "Interviewer: Did Daniel Kraft explain the process?") p)
      = false ∧
    relevantQuestions "00:05 | Interviewer: Did Daniel Kraft explain the process?"
      = [] := by
  decide


/-- C7 (amended): a transcript line produces a candidate question exactly
when it contains `'|'` and the portion after the first bar (stripped;
speaker label included) does not contain the candidate name
`"Daniel Kraft"` and contains `'?'` or one of the fixed lead phrases
(case-insensitively); a candidate survives exactly when no deny-list
phrase occurs (case-insensitively) in that same portion. In particular
`"00:05 | Interviewer: How are you doing today?"` yields no question
(deny-list `"doing today"`), while
`"00:10 | Interviewer: Can you describe your sales process?"` yields
exactly one. -/
theorem C7_questionFilter_amended :
    (∀ (i : ℕ) (line : String),
      (∃ q, candidateOfLine i line = some q) ↔
        ∃ pre post, splitBarOnce line = some (pre, post) ∧
          containsSub (speakerOf post) "Daniel Kraft" = false ∧
          (containsSub (pyStrip post) "?" = true ∨
            ∃ p ∈ questionIndicators,
              containsSub (toLowerStr (pyStrip post)) p = true)) ∧
    (∀ (i : ℕ) (line : String) (q : TQuestion), candidateOfLine i line = some q →
      (survivesDenyList q = true ↔
        ∀ p ∈ irrelevantPatterns, containsSub (toLowerStr q.text) p = false)) ∧
    relevantQuestions "00:05 | Interviewer: How are you doing today?" = [] ∧
    (relevantQuestions "00:10 | Interviewer: Can you describe your sales process?").map
      (fun q => q.text) = ["Interviewer: Can you describe your sales process?"] := by
  refine ⟨?_, ?_, by decide, by decide⟩
  · intro i line
    cases hsp : splitBarOnce line with
    | none =>
      constructor
      · rintro ⟨q, hq⟩
        simp only [candidateOfLine, hsp] at hq
        exact Option.noConfusion hq
      · rintro ⟨pre, post, hps, _⟩
        exact Option.noConfusion hps
    | some pr =>
      obtain ⟨pre, post⟩ := pr
      constructor
      · rintro ⟨q, hq⟩
        simp only [candidateOfLine, hsp] at hq
        by_cases hdk : containsSub (speakerOf post) "Daniel Kraft" = true
        · rw [if_pos hdk] at hq
          exact Option.noConfusion hq
        · rw [if_neg hdk] at hq
          by_cases hor : (containsSub (pyStrip post) "?" ||
              (questionIndicators.any fun p =>
                containsSub (toLowerStr (pyStrip post)) p)) = true
          · refine ⟨pre, post, rfl, Bool.eq_false_iff.mpr hdk, ?_⟩
            by_cases hb1 : containsSub (pyStrip post) "?" = true
            · exact Or.inl hb1
            · rw [Bool.eq_false_iff.mpr hb1, Bool.false_or] at hor
              exact Or.inr (List.any_eq_true.mp hor)
          · rw [if_neg hor] at hq
            exact Option.noConfusion hq
      · rintro ⟨pre2, post2, hps, hdk2, hcond⟩
        have hpp : pre = pre2 ∧ post = post2 := by
          simpa only [Option.some.injEq, Prod.mk.injEq] using hps
        obtain ⟨rfl, rfl⟩ : pre2 = pre ∧ post2 = post := ⟨hpp.1.symm, hpp.2.symm⟩
        have hdkneg : ¬containsSub (speakerOf post2) "Daniel Kraft" = true := by
          rw [hdk2]
          exact Bool.false_ne_true
        have hor : (containsSub (pyStrip post2) "?" ||
            (questionIndicators.any fun p =>
              containsSub (toLowerStr (pyStrip post2)) p)) = true := by
          rcases hcond with h1 | ⟨p, hp, hc⟩
          · rw [h1, Bool.true_or]
          · rw [List.any_eq_true.mpr ⟨p, hp, hc⟩, Bool.or_true]
        refine ⟨⟨if pyStrip pre2 = "" then "00:00" else pyStrip pre2,
          parseTimestamp (if pyStrip pre2 = "" then "00:00" else pyStrip pre2),
          pyStrip post2, i⟩, ?_⟩
        simp only [candidateOfLine, hsp]
        rw [if_neg hdkneg, if_pos hor]
  · intro i line q _
    constructor
    · intro hs p hp
      have hany : (irrelevantPatterns.any fun p =>
          containsSub (toLowerStr q.text) p) = false := by
        cases hb : (irrelevantPatterns.any fun p =>
            containsSub (toLowerStr q.text) p)
        · rfl
        · rw [survivesDenyList, hb] at hs
          exact absurd hs (by simp)
      exact Bool.eq_false_iff.mpr (List.any_eq_false.mp hany p hp)
    · intro hall
      rw [survivesDenyList]
      have hany : (irrelevantPatterns.any fun p =>
          containsSub (toLowerStr q.text) p) = false :=
        List.any_eq_false.mpr fun p hp => by
          rw [hall p hp]
          exact Bool.false_ne_true
      rw [hany]
      rfl

/-- Witness for `C7_questionFilter_amended` at the claim's second example
line: the characterization applies with the after-bar portion
`" Interviewer: Can you describe your sales process?"`, and the deny-list
equivalence holds for the produced candidate. -/
theorem C7_questionFilter_amended_witness :
    (∃ q, candidateOfLine 0
      "00:10 | Interviewer: Can you describe your sales process?" = some q) ∧
    (survivesDenyList
        ⟨"00:10", 10, "Interviewer: Can you describe your sales process?", 0⟩ = true ↔
      ∀ p ∈ irrelevantPatterns,
        containsSub (toLowerStr
          "Interviewer: Can you describe your sales process?") p = false) := by
  constructor
  · exact (C7_questionFilter_amended.1 0
      "00:10 | Interviewer: Can you describe your sales process?").mpr
      ⟨"00:10 ", " Interviewer: Can you describe your sales process?",
        by decide, by decide, Or.inl (by decide)⟩
  · exact C7_questionFilter_amended.2.1 0
      "00:10 | Interviewer: Can you describe your sales process?"
      ⟨"00:10", 10, "Interviewer: Can you describe your sales process?", 0⟩
      (by decide)
